import Mathlib

/-!
Verification of the Feishu channel plugin message pipeline.

This file is a shallow embedding of the inbound message processing and reply
dispatch pipeline of the plugin (policy.ts, bot.ts, reply-dispatcher.ts),
together with theorems settling the specified properties.

Modelling conventions:
- JavaScript strings are Lean `String`; character-level operations work on
  `String.data`.  Whitespace and lowercasing are modelled at ASCII granularity
  (the JS originals additionally handle rare Unicode spaces and letters).
- JSON message payloads are modelled by an inductive `Json` value; a failed
  `JSON.parse` is `none`.  Non-string JSON fields in positions where the code
  expects strings are modelled as absent.
- Network and filesystem collaborators (download, MIME sniffing, artifact
  store, agent dispatch) are oracle parameters; a `none`/failure result of an
  oracle models the corresponding call throwing.
-/

/-! ### Character and string helpers (JS semantics) -/

/-- ASCII whitespace, the model of the JS `\s` class and of `trim`. -/
def wsChar (c : Char) : Bool :=
  c == ' ' || c == '\t' || c == '\n' || c == '\r'

/-- Remove trailing whitespace characters. -/
def dropTrailWs (l : List Char) : List Char :=
  (l.reverse.dropWhile wsChar).reverse

/-- Model of `String.prototype.trim` on character lists. -/
def trimL (l : List Char) : List Char :=
  dropTrailWs (l.dropWhile wsChar)

/-- Model of `String.prototype.trim`. -/
def trimS (s : String) : String :=
  ⟨trimL s.data⟩

/-- Model of `String.prototype.toLowerCase` (ASCII letters). -/
def lowerS (s : String) : String :=
  ⟨s.data.map Char.toLower⟩

/-- JS truthiness of an optional string: `undefined` and `""` are falsy. -/
def truthyOS (o : Option String) : Bool :=
  match o with
  | some s => s != ""
  | none => false

/-- JS `a || b` on optional strings: returns `b` when `a` is falsy. -/
def torOS (a b : Option String) : Option String :=
  if truthyOS a then a else b

/-- JS `v || undefined` on an optional string: an empty string becomes absent. -/
def truthyOpt (o : Option String) : Option String :=
  match o with
  | some s => if s = "" then none else some s
  | none => none

/-! ### Allow-list policy (policy.ts) -/

/-- An allow-list entry may be configured as a string or a number
(`allowFrom: Array<string | number>`). -/
inductive StrOrNum where
  | str (s : String)
  | num (n : Int)
deriving DecidableEq, Repr

/-- JS `String(entry)`: coerce an allow-list entry to a string. -/
def StrOrNum.toStr : StrOrNum → String
  | .str s => s
  | .num n => toString n

/-- The reported source of an allow-list match. -/
inductive MatchSource where
  | wildcard
  | id
  | name
deriving DecidableEq, Repr

/-- Result of `resolveFeishuAllowlistMatch`. -/
structure FeishuAllowlistMatch where
  allowed : Bool
  matchKey : Option String := none
  matchSource : Option MatchSource := none
deriving DecidableEq, Repr

/-- `String(entry).trim().toLowerCase()` applied to one allow-list entry. -/
def normEntry (e : StrOrNum) : String :=
  lowerS (trimS e.toStr)

/-- The normalized allow-list: entries coerced to strings, trimmed, lowercased,
and empty entries removed (`.filter(Boolean)`), as in
`resolveFeishuAllowlistMatch` (policy.ts lines 15-17). -/
def normalizeAllowFrom (allowFrom : List StrOrNum) : List String :=
  (allowFrom.map normEntry).filter (fun s => s ≠ "")

/-- Embedding of `resolveFeishuAllowlistMatch` (policy.ts lines 10-35). -/
def resolveFeishuAllowlistMatch (allowFrom : List StrOrNum) (senderId : String)
    (senderName : Option String) : FeishuAllowlistMatch :=
  let af := normalizeAllowFrom allowFrom
  if af.length = 0 then { allowed := false }
  else if af.contains "*" then
    { allowed := true, matchKey := some "*", matchSource := some .wildcard }
  else
    let sid := lowerS senderId
    if af.contains sid then
      { allowed := true, matchKey := some sid, matchSource := some .id }
    else
      match senderName.map lowerS with
      | some sn =>
          if sn ≠ "" ∧ af.contains sn then
            { allowed := true, matchKey := some sn, matchSource := some .name }
          else { allowed := false }
      | none => { allowed := false }

/-- Group admission policy modes. -/
inductive GroupPolicy where
  | open
  | allowlist
  | disabled
deriving DecidableEq, Repr

/-- Direct-message admission policy modes. -/
inductive DmPolicy where
  | open
  | pairing
  | allowlist
deriving DecidableEq, Repr

/-- Reply render mode of the dispatcher. -/
inductive RenderMode where
  | auto
  | raw
  | card
deriving DecidableEq, Repr

/-- Per-group configuration (`FeishuGroupConfig`), restricted to the fields the
pipeline reads. -/
structure FeishuGroupConfig where
  allowFrom : Option (List StrOrNum) := none
  requireMention : Option Bool := none
deriving Repr

/-- Channel configuration (`FeishuConfig`), restricted to the fields the
pipeline reads.  `groups` is an insertion-ordered record. -/
structure FeishuConfig where
  groupPolicy : Option GroupPolicy := none
  groupAllowFrom : Option (List StrOrNum) := none
  groups : Option (List (String × FeishuGroupConfig)) := none
  requireMention : Option Bool := none
  historyLimit : Option Int := none
  dmPolicy : Option DmPolicy := none
  allowFrom : Option (List StrOrNum) := none
  renderMode : Option RenderMode := none
deriving Repr

/-- Embedding of `resolveFeishuGroupConfig` (policy.ts lines 37-51): exact key
lookup first, then first case-insensitive key match in record order. -/
def resolveFeishuGroupConfig (cfg : Option FeishuConfig) (groupId : Option String) :
    Option FeishuGroupConfig :=
  let groups := (cfg.bind (·.groups)).getD []
  match groupId.map trimS with
  | none => none
  | some g =>
    if g = "" then none
    else
      match groups.find? (fun kv => kv.1 = g) with
      | some kv => some kv.2
      | none =>
        match groups.find? (fun kv => lowerS kv.1 = lowerS g) with
        | some kv => some kv.2
        | none => none

/-- Embedding of `isFeishuGroupAllowed` (policy.ts lines 67-77). -/
def isFeishuGroupAllowed (groupPolicy : GroupPolicy) (allowFrom : List StrOrNum)
    (senderId : String) (senderName : Option String) : Bool :=
  match groupPolicy with
  | .disabled => false
  | .open => true
  | .allowlist => (resolveFeishuAllowlistMatch allowFrom senderId senderName).allowed

/-- Embedding of `resolveFeishuReplyPolicy` (policy.ts lines 79-92), returning
the resolved `requireMention` flag. -/
def resolveFeishuReplyPolicy (isDirectMessage : Bool) (globalConfig : Option FeishuConfig)
    (groupConfig : Option FeishuGroupConfig) : Bool :=
  if isDirectMessage then false
  else (groupConfig.bind (·.requireMention)).getD
    ((globalConfig.bind (·.requireMention)).getD true)

/-- The effective group allow-list used by `handleFeishuMessage` (bot.ts line
396): the group-specific `allowFrom` when configured, else the global
`groupAllowFrom`. -/
def effectiveGroupAllowFrom (groupConfig : Option FeishuGroupConfig)
    (groupAllowFrom : List StrOrNum) : List StrOrNum :=
  (groupConfig.bind (·.allowFrom)).getD groupAllowFrom

/-! ### JSON model and message events (bot.ts) -/

/-- Inductive model of JSON values for message `content` payloads. -/
inductive Json where
  | null
  | bool (b : Bool)
  | str (s : String)
  | num (n : Int)
  | arr (elts : List Json)
  | obj (fields : List (String × Json))

/-- Object field access (`parsed.field`). -/
def jField (j : Json) (k : String) : Option Json :=
  match j with
  | .obj fields => (fields.find? (fun f => f.1 = k)).map (·.2)
  | _ => none

/-- A string field value, or `none` when absent or not a string. -/
def jStrField (j : Json) (k : String) : Option String :=
  match jField j k with
  | some (.str s) => some s
  | _ => none

/-- A truthy string field value (`parsed.field || ...` treats `""` as falsy). -/
def jStrTruthy (j : Json) (k : String) : Option String :=
  match jStrField j k with
  | some s => if s = "" then none else some s
  | none => none

/-- Chat kind discriminator (`chat_type: "p2p" | "group"`). -/
inductive ChatType where
  | p2p
  | group
deriving DecidableEq, Repr

/-- Identifier aliases of a principal (`open_id` / `user_id` / `union_id`). -/
structure PrincipalId where
  openId : Option String := none
  userId : Option String := none
  unionId : Option String := none
deriving DecidableEq, Repr

/-- One entry of a message event mention list. -/
structure Mention where
  key : String
  id : PrincipalId
  name : String
deriving DecidableEq, Repr

/-- The `message` part of a Feishu message event.  `content` is the raw
payload string and `contentJson` its `JSON.parse` result (`none` on parse
failure). -/
structure FeishuMessagePart where
  messageId : String
  rootId : Option String := none
  parentId : Option String := none
  chatId : String
  chatType : ChatType
  messageType : String
  content : String
  contentJson : Option Json := none
  mentions : Option (List Mention) := none

/-- The `sender` part of a Feishu message event. -/
structure FeishuSender where
  senderId : PrincipalId
deriving DecidableEq, Repr

/-- Embedding of `FeishuMessageEvent` (bot.ts lines 21-50). -/
structure FeishuMessageEvent where
  sender : FeishuSender
  message : FeishuMessagePart

/-- Embedding of `checkBotMentioned` (bot.ts lines 80-85).  `!botOpenId` is JS
truthiness: an undefined or empty bot id counts as unknown. -/
def checkBotMentioned (event : FeishuMessageEvent) (botOpenId : Option String) : Bool :=
  let mentions := event.message.mentions.getD []
  if mentions.length = 0 then false
  else if ¬ truthyOS botOpenId then decide (0 < mentions.length)
  else mentions.any (fun m => m.id.openId == botOpenId)

/-- `l` begins with `p`. -/
def leadsWith : List Char → List Char → Bool
  | [], _ => true
  | _ :: _, [] => false
  | p :: ps, c :: cs => p == c && leadsWith ps cs

/-- `pat` occurs somewhere in `s` (regex `test` with a literal pattern). -/
def containsSub (pat : List Char) : List Char → Bool
  | [] => pat.isEmpty
  | c :: cs => leadsWith pat (c :: cs) || containsSub pat cs

/-- Fueled global replace-with-empty of the literal pattern `pat`:
`s.replace(new RegExp(pat, "g"), "")` for a pattern without metacharacters.
The fuel is an upper bound on the length of the remaining input. -/
def removeAllGo (pat : List Char) : Nat → List Char → List Char
  | _, [] => []
  | 0, s => s
  | fuel + 1, c :: cs =>
    if pat ≠ [] ∧ leadsWith pat (c :: cs) = true then
      removeAllGo pat fuel (List.drop pat.length (c :: cs))
    else c :: removeAllGo pat fuel cs

/-- Global replace-with-empty of the literal pattern `pat`. -/
def removeAll (pat s : List Char) : List Char :=
  removeAllGo pat s.length s

/-- Fueled global replace-with-empty of `pat` followed by greedy whitespace:
`s.replace(new RegExp(pat + "\\s*", "g"), "")` for a literal `pat`. -/
def removePatWsGo (pat : List Char) : Nat → List Char → List Char
  | _, [] => []
  | 0, s => s
  | fuel + 1, c :: cs =>
    if pat ≠ [] ∧ leadsWith pat (c :: cs) = true then
      removePatWsGo pat fuel ((List.drop pat.length (c :: cs)).dropWhile wsChar)
    else c :: removePatWsGo pat fuel cs

/-- Global replace-with-empty of `pat` followed by greedy whitespace. -/
def removePatWs (pat s : List Char) : List Char :=
  removePatWsGo pat s.length s

/-- One loop iteration of `stripBotMention`: remove the display form
`@name\s*`, trim, remove the raw key token, trim. -/
def stripStep (r : List Char) (m : Mention) : List Char :=
  trimL (removeAll m.key.data (trimL (removePatWs ('@' :: m.name.data) r)))

/-- Embedding of `stripBotMention` (bot.ts lines 87-95).  Mention names and
keys are modelled as literal patterns (in practice they contain no regex
metacharacters). -/
def stripBotMention (text : String) (mentions : Option (List Mention)) : String :=
  match mentions with
  | none => text
  | some ms => if ms = [] then text else ⟨ms.foldl stripStep text.data⟩

/-- Result of `parsePostContent`. -/
structure PostParsed where
  textContent : String
  imageKeys : List String
deriving DecidableEq, Repr

/-- The text contributed by one rich-text element (tags `text`, `a`, `at`). -/
def postElementText (el : Json) : String :=
  let tag := (jStrField el "tag").getD ""
  if tag = "text" then (jStrTruthy el "text").getD ""
  else if tag = "a" then (torOS (jStrTruthy el "text") (jStrTruthy el "href")).getD ""
  else if tag = "at" then
    "@" ++ (torOS (jStrTruthy el "user_name") (jStrTruthy el "user_id")).getD ""
  else ""

/-- The image key contributed by one rich-text element (tag `img`, truthy
`image_key`). -/
def postElementImageKey (el : Json) : Option String :=
  if (jStrField el "tag").getD "" = "img" then jStrTruthy el "image_key"
  else none

/-- Fold step over the elements of one rich-text paragraph. -/
def postElemStep (acc : String × List String) (el : Json) : String × List String :=
  match postElementImageKey el with
  | some k => (acc.1 ++ postElementText el, acc.2 ++ [k])
  | none => (acc.1 ++ postElementText el, acc.2)

/-- Fold step over rich-text paragraphs; non-array paragraphs are skipped. -/
def postParaStep (acc : String × List String) (paragraph : Json) : String × List String :=
  match paragraph with
  | .arr elts =>
    let acc2 := elts.foldl postElemStep acc
    (acc2.1 ++ "\n", acc2.2)
  | _ => acc

/-- Embedding of `parsePostContent` (bot.ts lines 134-172): extract the text
and the embedded image keys of a rich-text (`post`) message. -/
def parsePostContent (contentJson : Option Json) : PostParsed :=
  match contentJson with
  | none => ⟨"[富文本消息]", []⟩
  | some parsed =>
    let title := (jStrTruthy parsed "title").getD ""
    let blocks := match jField parsed "content" with
      | some (.arr xs) => xs
      | _ => []
    let init : String × List String := (if title = "" then "" else title ++ "\n\n", [])
    let res := blocks.foldl postParaStep init
    let t := trimS res.1
    ⟨if t = "" then "[富文本消息]" else t, res.2⟩

/-- Embedding of `parseMessageContent` (bot.ts lines 63-78). -/
def parseMessageContent (raw : String) (contentJson : Option Json)
    (messageType : String) : String :=
  match contentJson with
  | none => raw
  | some parsed =>
    if messageType = "text" then (jStrTruthy parsed "text").getD ""
    else if messageType = "post" then (parsePostContent (some parsed)).textContent
    else raw

/-- Media keys extracted from a message payload. -/
structure MediaKeys where
  imageKey : Option String := none
  fileKey : Option String := none
  fileName : Option String := none
deriving DecidableEq, Repr

/-- Embedding of `parseMediaKeys` (bot.ts lines 100-128). -/
def parseMediaKeys (contentJson : Option Json) (messageType : String) : MediaKeys :=
  match contentJson with
  | none => {}
  | some parsed =>
    if messageType = "image" then { imageKey := jStrField parsed "image_key" }
    else if messageType = "file" then
      { fileKey := jStrField parsed "file_key", fileName := jStrField parsed "file_name" }
    else if messageType = "audio" then { fileKey := jStrField parsed "file_key" }
    else if messageType = "video" then
      { fileKey := jStrField parsed "file_key", imageKey := jStrField parsed "image_key" }
    else if messageType = "sticker" then { fileKey := jStrField parsed "file_key" }
    else {}

/-- Embedding of `inferPlaceholder` (bot.ts lines 177-192). -/
def inferPlaceholder (messageType : String) : String :=
  if messageType = "image" then "<media:image>"
  else if messageType = "file" then "<media:document>"
  else if messageType = "audio" then "<media:audio>"
  else if messageType = "video" then "<media:video>"
  else if messageType = "sticker" then "<media:sticker>"
  else "<media:document>"

/-- A `downloadMessageResourceFeishu` request: message id, resource key, and
resource type (`"image"` or `"file"`). -/
structure MediaFetchRequest where
  messageId : String
  fileKey : String
  rtype : String
deriving DecidableEq, Repr

/-- A downloaded and persisted media artifact (the collapsed result of the
download / MIME-sniff / `saveMediaBuffer` collaborator pipeline). -/
structure SavedMedia where
  path : String
  contentType : String
deriving DecidableEq, Repr

/-- Embedding of `FeishuMediaInfo`. -/
structure FeishuMediaInfo where
  path : String
  contentType : String
  placeholder : String
deriving DecidableEq, Repr

/-- The message types processed by the media resolver (bot.ts line 209). -/
def mediaTypes : List String := ["image", "file", "audio", "video", "sticker", "post"]

/-- Fold step of the embedded-image loop of `resolveFeishuMediaList`: each key
is fetched independently; a failed fetch (`none`) is logged and skipped. -/
def postMediaStep (messageId : String) (fetch : MediaFetchRequest → Option SavedMedia)
    (acc : List FeishuMediaInfo × List MediaFetchRequest) (k : String) :
    List FeishuMediaInfo × List MediaFetchRequest :=
  let req : MediaFetchRequest := ⟨messageId, k, "image"⟩
  match fetch req with
  | some saved => (acc.1 ++ [⟨saved.path, saved.contentType, "<media:image>"⟩], acc.2 ++ [req])
  | none => (acc.1, acc.2 ++ [req])

/-- Embedding of `resolveFeishuMediaList` (bot.ts lines 198-318).  `fetch` is
the oracle for the download / MIME-sniff / persist pipeline of one resource
(`none` models a throw, caught per item).  Returns the resolved media list and
the trace of download requests issued. -/
def resolveFeishuMediaList (messageId messageType : String) (contentJson : Option Json)
    (fetch : MediaFetchRequest → Option SavedMedia) :
    List FeishuMediaInfo × List MediaFetchRequest :=
  if ¬ mediaTypes.contains messageType then ([], [])
  else if messageType = "post" then
    let keys := (parsePostContent contentJson).imageKeys
    if keys = [] then ([], [])
    else keys.foldl (postMediaStep messageId fetch) ([], [])
  else
    let mk := parseMediaKeys contentJson messageType
    if ¬ truthyOS mk.imageKey ∧ ¬ truthyOS mk.fileKey then ([], [])
    else
      let fileKey := torOS mk.imageKey mk.fileKey
      if ¬ truthyOS fileKey then ([], [])
      else
        let rtype := if messageType = "image" then "image" else "file"
        let req : MediaFetchRequest := ⟨messageId, fileKey.getD "", rtype⟩
        match fetch req with
        | some saved => ([⟨saved.path, saved.contentType, inferPlaceholder messageType⟩], [req])
        | none => ([], [req])

/-! ### Normalized inbound context (bot.ts `parseFeishuMessageEvent`) -/

/-- Embedding of `FeishuMessageContext` as populated by
`parseFeishuMessageEvent`.  The type declares an optional `senderName`, but
`parseFeishuMessageEvent` never sets it, so it is omitted here and the
handler passes `none` for it. -/
structure FeishuMessageContext where
  chatId : String
  messageId : String
  senderId : String
  senderOpenId : String
  chatType : ChatType
  mentionedBot : Bool
  rootId : Option String
  parentId : Option String
  content : String
  contentType : String
deriving DecidableEq, Repr

/-- Embedding of `parseFeishuMessageEvent` (bot.ts lines 347-367). -/
def parseFeishuMessageEvent (event : FeishuMessageEvent) (botOpenId : Option String) :
    FeishuMessageContext :=
  let msg := event.message
  let rawContent := parseMessageContent msg.content msg.contentJson msg.messageType
  let mentionedBot := checkBotMentioned event botOpenId
  let content := stripBotMention rawContent msg.mentions
  { chatId := msg.chatId
    messageId := msg.messageId
    senderId := (torOS event.sender.senderId.userId event.sender.senderId.openId).getD ""
    senderOpenId := event.sender.senderId.openId.getD ""
    chatType := msg.chatType
    mentionedBot := mentionedBot
    rootId := truthyOpt msg.rootId
    parentId := truthyOpt msg.parentId
    content := content
    contentType := msg.messageType }

/-! ### History buffer (external SDK helpers, modelled from the spec) -/

/-- One history buffer entry (sender id, body text, timestamp, message id). -/
structure HistoryEntry where
  sender : String
  body : String
  timestamp : Int
  messageId : String
deriving DecidableEq, Repr

/-- The conversation-keyed history map (`Map<string, HistoryEntry[]>`). -/
abbrev HistMap := List (String × List HistoryEntry)

/-- The buffer of one conversation (absent key means empty buffer). -/
def histGet (m : HistMap) (k : String) : List HistoryEntry :=
  ((m.find? (fun kv => kv.1 = k)).map (·.2)).getD []

/-- Replace (or create) the buffer of one conversation, leaving other
conversations untouched. -/
def histSet (m : HistMap) (k : String) (v : List HistoryEntry) : HistMap :=
  match m with
  | [] => [(k, v)]
  | kv :: rest => if kv.1 = k then (k, v) :: rest else kv :: histSet rest k v

/-- Modelled from the spec: `recordPendingHistoryEntryIfEnabled` of the plugin
SDK is not under src/.  Per spec section 4.3, `record` appends the entry; if
the buffer exceeds the limit the oldest entries are evicted first (FIFO); it
is a no-op when the limit is 0. -/
def recordHist (m : HistMap) (k : String) (limit : Nat) (e : HistoryEntry) : HistMap :=
  if limit = 0 then m
  else
    let next := histGet m k ++ [e]
    histSet m k (next.drop (next.length - limit))

/-- Modelled from the spec: `clearHistoryEntriesIfEnabled` of the plugin SDK
is not under src/.  Per spec section 4.3, `clear` empties the buffer of the
conversation. -/
def clearHist (m : HistMap) (k : String) : HistMap :=
  histSet m k []

/-! ### The message handler (bot.ts `handleFeishuMessage`) -/

/-- Where the `try` block of `handleFeishuMessage` throws, if anywhere:
before media resolution, after media resolution but before the agent
dispatch, or during the dispatch itself.  A successful dispatch always
reaches the history clear: the only statement in between is the typing
teardown `markDispatchIdle()`, whose failures are caught and logged
internally (typing.ts catches in `addTypingIndicator` and
`removeTypingIndicator`; spec section 4.6: indicator failures never abort
delivery), and the buffer clear itself never throws (spec section 4.3). -/
inductive TryStage where
  | beforeMedia
  | beforeDispatch
  | dispatchStep
deriving DecidableEq, Repr

/-- Input bundle of `handleFeishuMessage`: configuration, event, resolved bot
id, the shared history map, the current clock, and the failure oracle for the
`try` block.  `agentReplyCount` is the number of deliveries the agent dispatch
performs when it is invoked. -/
structure HandleParams where
  feishuCfg : Option FeishuConfig
  msgsHistoryLimit : Option Int
  defaultHistoryLimit : Int
  event : FeishuMessageEvent
  botOpenId : Option String
  chatHistories : Option HistMap
  now : Int
  failure : Option TryStage
  agentReplyCount : Nat

/-- Observable outcome of one `handleFeishuMessage` run: the final history
map plus effect flags (whether media resolution ran, whether the agent
dispatch was invoked, and how many reply deliveries were made). -/
structure HandleResult where
  chatHistories : Option HistMap
  mediaResolved : Bool
  dispatched : Bool
  repliesSent : Nat
deriving DecidableEq, Repr

/-- The normalized context computed at the top of `handleFeishuMessage`. -/
def ctxOf (p : HandleParams) : FeishuMessageContext :=
  parseFeishuMessageEvent p.event p.botOpenId

/-- The resolved history limit (bot.ts lines 386-389):
`Math.max(0, feishuCfg?.historyLimit ?? cfg.messages?.groupChat?.historyLimit
?? DEFAULT_GROUP_HISTORY_LIMIT)`. -/
def historyLimitOf (p : HandleParams) : Nat :=
  (max 0 ((p.feishuCfg.bind (·.historyLimit)).getD
    (p.msgsHistoryLimit.getD p.defaultHistoryLimit))).toNat

/-- `feishuCfg?.groupPolicy ?? "open"` (bot.ts line 392). -/
def groupPolicyOf (p : HandleParams) : GroupPolicy :=
  (p.feishuCfg.bind (·.groupPolicy)).getD .open

/-- `feishuCfg?.groupAllowFrom ?? []` (bot.ts line 393). -/
def groupAllowFromOf (p : HandleParams) : List StrOrNum :=
  (p.feishuCfg.bind (·.groupAllowFrom)).getD []

/-- The group config resolved for the chat of the event (bot.ts line 394). -/
def groupConfigOf (p : HandleParams) : Option FeishuGroupConfig :=
  resolveFeishuGroupConfig p.feishuCfg (some (ctxOf p).chatId)

/-- The effective sender allow-list (bot.ts line 396). -/
def senderAllowFromOf (p : HandleParams) : List StrOrNum :=
  effectiveGroupAllowFrom (groupConfigOf p) (groupAllowFromOf p)

/-- The group admission decision (bot.ts lines 397-402).
`parseFeishuMessageEvent` never sets `senderName`, so `undefined` is passed. -/
def groupAllowedOf (p : HandleParams) : Bool :=
  isFeishuGroupAllowed (groupPolicyOf p) (senderAllowFromOf p) (ctxOf p).senderOpenId none

/-- The resolved reply policy of the group (bot.ts lines 409-413). -/
def requireMentionOf (p : HandleParams) : Bool :=
  resolveFeishuReplyPolicy false p.feishuCfg (groupConfigOf p)

/-- `feishuCfg?.dmPolicy ?? "pairing"` (bot.ts line 433). -/
def dmPolicyOf (p : HandleParams) : DmPolicy :=
  (p.feishuCfg.bind (·.dmPolicy)).getD .pairing

/-- `feishuCfg?.allowFrom ?? []` (bot.ts line 434). -/
def dmAllowFromOf (p : HandleParams) : List StrOrNum :=
  (p.feishuCfg.bind (·.allowFrom)).getD []

/-- The `try` block of `handleFeishuMessage` (bot.ts lines 448-593): system
event enqueue, media resolution, quoted fetch, envelope build, dispatch,
typing teardown, then (groups only, truthy history key, history map present)
the history clear.  A throw at any stage lands in the catch, which only
logs; `p.failure = none` coincides with the dispatch completing
successfully, because nothing after a successful dispatch can throw before
the clear (see `TryStage`). -/
def runTryBlock (p : HandleParams) (ctx : FeishuMessageContext) (isGroup : Bool) :
    HandleResult :=
  let mediaResolved := p.failure ≠ some .beforeMedia
  let dispatched := p.failure ≠ some .beforeMedia ∧ p.failure ≠ some .beforeDispatch
  let clearRuns := p.failure = none ∧ isGroup = true ∧ ctx.chatId ≠ ""
  { chatHistories :=
      if clearRuns then p.chatHistories.map (fun m => clearHist m ctx.chatId)
      else p.chatHistories
    mediaResolved := decide mediaResolved
    dispatched := decide dispatched
    repliesSent := if dispatched then p.agentReplyCount else 0 }

/-- Embedding of `handleFeishuMessage` (bot.ts lines 369-594). -/
def handleFeishuMessage (p : HandleParams) : HandleResult :=
  let ctx := ctxOf p
  match ctx.chatType with
  | .group =>
    if groupAllowedOf p = false then
      { chatHistories := p.chatHistories, mediaResolved := false,
        dispatched := false, repliesSent := 0 }
    else if requireMentionOf p = true ∧ ctx.mentionedBot = false then
      { chatHistories := p.chatHistories.map (fun m =>
          recordHist m ctx.chatId (historyLimitOf p)
            ⟨ctx.senderOpenId, ctx.content, p.now, ctx.messageId⟩)
        mediaResolved := false, dispatched := false, repliesSent := 0 }
    else runTryBlock p ctx true
  | .p2p =>
    if dmPolicyOf p = .allowlist ∧
        (resolveFeishuAllowlistMatch (dmAllowFromOf p) ctx.senderOpenId none).allowed = false then
      { chatHistories := p.chatHistories, mediaResolved := false,
        dispatched := false, repliesSent := 0 }
    else runTryBlock p ctx false

/-! ### Reply dispatcher (reply-dispatcher.ts) -/

/-- A JS regex line terminator, excluded by `.`. -/
def isLineTermChar (c : Char) : Bool :=
  c == '\n' || c == '\r' || c == Char.ofNat 0x2028 || c == Char.ofNat 0x2029

/-- A character of the class `[\r\n]`. -/
def isCRLF (c : Char) : Bool :=
  c == '\r' || c == '\n'

/-- A character of the class `[-:| ]`. -/
def isSepChar (c : Char) : Bool :=
  c == '-' || c == ':' || c == '|' || c == ' '

/-- Does some nonempty run of `p`-characters start here, with `k` accepting
the remainder?  This is the matcher of one `X+` regex segment followed by a
continuation. -/
def existsSegRun (p : Char → Bool) (k : List Char → Bool) : List Char → Bool
  | [] => false
  | c :: cs => p c && (k cs || existsSegRun p k cs)

/-- The backtick character (0x60). -/
def btick : Char := Char.ofNat 0x60

/-- The token opening and closing a fenced code block. -/
def fenceTok : List Char := [btick, btick, btick]

/-- Matcher of the fenced-code regex (two occurrences of the fence token, the
second after the first): the regex on reply-dispatcher.ts line 24. -/
def hasFence : List Char → Bool
  | [] => false
  | c :: cs =>
    (leadsWith fenceTok (c :: cs) && containsSub fenceTok (List.drop fenceTok.length (c :: cs)))
      || hasFence cs

/-- Matcher of a literal `\|` followed by the continuation `f`. -/
def pipeThen (f : List Char → Bool) : List Char → Bool
  | [] => false
  | c :: rest => c == '|' && f rest

/-- A character that is not a line terminator (the regex `.` class). -/
def notLineTerm (c : Char) : Bool :=
  !(isLineTermChar c)

/-- Does the table regex (reply-dispatcher.ts line 26) match starting exactly
here: a pipe, a nonempty run of non-line-terminators, a pipe, a nonempty run
of `[\r\n]`, a pipe, a nonempty run of `[-:| ]`, and a closing pipe. -/
def tableAt : List Char → Bool :=
  pipeThen (existsSegRun notLineTerm
    (pipeThen (existsSegRun isCRLF
      (pipeThen (existsSegRun isSepChar
        (pipeThen (fun _ => true)))))))

/-- Matcher of the table regex anywhere in the text. -/
def hasTable : List Char → Bool
  | [] => false
  | c :: cs => tableAt (c :: cs) || hasTable cs

/-- Embedding of `shouldUseCard` (reply-dispatcher.ts lines 22-28). -/
def shouldUseCard (text : String) : Bool :=
  hasFence text.data || hasTable text.data

/-- The delivery calls made for one reply fragment. -/
inductive DeliverResult where
  | skipped
  | cards (chunks : List String)
  | texts (chunks : List String)
deriving DecidableEq, Repr

/-- Embedding of the `deliver` callback of `createFeishuReplyDispatcher`
(reply-dispatcher.ts lines 98-139).  `convertTables` and `chunk` are the
`convertMarkdownTables` and `chunkTextWithMode` collaborators. -/
def deliverFeishuReply (renderMode : Option RenderMode)
    (convertTables : String → String) (chunk : String → List String)
    (payloadText : Option String) : DeliverResult :=
  let text := payloadText.getD ""
  if trimS text = "" then .skipped
  else
    let rm := renderMode.getD .auto
    if rm = RenderMode.card ∨ (rm = RenderMode.auto ∧ shouldUseCard text = true) then
      .cards (chunk text)
    else
      .texts (chunk (convertTables text))

/-! ### Spec-side reference definitions (for refinement comparison) -/

/-- The allow-list match as the spec words it: precedence
wildcard > id > name, each case-insensitive, over the normalized entries. -/
def allowlistMatchSpec (allowFrom : List StrOrNum) (senderId : String)
    (senderName : Option String) : FeishuAllowlistMatch :=
  let norm := normalizeAllowFrom allowFrom
  if norm.contains "*" then
    { allowed := true, matchKey := some "*", matchSource := some .wildcard }
  else if norm.contains (lowerS senderId) then
    { allowed := true, matchKey := some (lowerS senderId), matchSource := some .id }
  else
    match senderName with
    | some n =>
        if norm.contains (lowerS n) then
          { allowed := true, matchKey := some (lowerS n), matchSource := some .name }
        else { allowed := false }
    | none => { allowed := false }

/-- The group admission rule as the spec words it: `disabled` drops,
`open` accepts regardless of the allow-list, `allowlist` accepts exactly when
the normalized list holds the wildcard, the lowercased sender id, or the
lowercased sender name. -/
def groupAcceptSpec (policy : GroupPolicy) (allowFrom : List StrOrNum)
    (senderId : String) (senderName : Option String) : Bool :=
  match policy with
  | .disabled => false
  | .open => true
  | .allowlist =>
    let norm := normalizeAllowFrom allowFrom
    norm.contains "*" || norm.contains (lowerS senderId) ||
      (match senderName with
       | some n => norm.contains (lowerS n)
       | none => false)

/-- The text contains a fenced code block: two occurrences of the fence
token, the second at or after the end of the first. -/
def FenceOccurs (s : List Char) : Prop :=
  ∃ a b c, s = a ++ fenceTok ++ b ++ fenceTok ++ c

/-- The text contains the markdown table pattern: a pipe, a nonempty run of
non-line-terminator characters, a pipe, a nonempty run of CR/LF characters, a
pipe, a nonempty run of separator-row characters, and a closing pipe. -/
def TableOccurs (s : List Char) : Prop :=
  ∃ pre b c d rest,
    s = pre ++ '|' :: (b ++ '|' :: (c ++ '|' :: (d ++ '|' :: rest)))
    ∧ b ≠ [] ∧ (∀ x ∈ b, isLineTermChar x = false)
    ∧ c ≠ [] ∧ (∀ x ∈ c, isCRLF x = true)
    ∧ d ≠ [] ∧ (∀ x ∈ d, isSepChar x = true)

/-- The table pattern matches at the very start of the text. -/
def TableAtProp (s : List Char) : Prop :=
  ∃ b c d rest,
    s = '|' :: (b ++ '|' :: (c ++ '|' :: (d ++ '|' :: rest)))
    ∧ b ≠ [] ∧ (∀ x ∈ b, isLineTermChar x = false)
    ∧ c ≠ [] ∧ (∀ x ∈ c, isCRLF x = true)
    ∧ d ≠ [] ∧ (∀ x ∈ d, isSepChar x = true)

/-! ### Concrete inputs used by counterexamples and witnesses -/

/-- A group text message event carrying one mention of user `u1`. -/
def evMentionU1 : FeishuMessageEvent where
  sender := ⟨{ openId := some "u_sender" }⟩
  message :=
    { messageId := "m1"
      chatId := "c1"
      chatType := .group
      messageType := "text"
      content := "{}"
      contentJson := some (.obj [("text", .str "hi")])
      mentions := some [⟨"@_user_1", { openId := some "u1" }, "Bot"⟩] }

/-- A mention list with display name `a` and key `zzz`. -/
def mentionListA : List Mention := [⟨"zzz", {}, "a"⟩]

/-- A mention list with display name `Bot` and key `@_user_1`. -/
def mentionListBot : List Mention := [⟨"@_user_1", {}, "Bot"⟩]

/-- The content payload of a video message carrying both the video file key
and the thumbnail image key. -/
def videoContentJson : Json :=
  .obj [("file_key", .str "vid1"), ("image_key", .str "thumb1")]

/-- Handler input: group message of `evMentionU1`, default policies, bot id
resolved to `bot9` (so the event does not mention the bot), history limit 5,
empty history map. -/
def pBuffer : HandleParams where
  feishuCfg := some { historyLimit := some 5 }
  msgsHistoryLimit := none
  defaultHistoryLimit := 20
  event := evMentionU1
  botOpenId := some "bot9"
  chatHistories := some []
  now := 111
  failure := none
  agentReplyCount := 2

/-- Handler input: as `pBuffer` but the bot id is `u1`, so the event mentions
the bot and reaches dispatch; one entry is already buffered for the chat. -/
def pDispatch : HandleParams where
  feishuCfg := some { historyLimit := some 5 }
  msgsHistoryLimit := none
  defaultHistoryLimit := 20
  event := evMentionU1
  botOpenId := some "u1"
  chatHistories := some [("c1", [⟨"u_old", "earlier", 100, "m0"⟩])]
  now := 111
  failure := none
  agentReplyCount := 2

/-! ### Helper lemmas: allow-list matching -/

theorem lowerS_empty_iff (s : String) : lowerS s = "" ↔ s = "" := by
  cases s with
  | mk data =>
    cases data with
    | nil => exact Iff.rfl
    | cons c cs => simp [lowerS, String.ext_iff]

theorem mem_normalizeAllowFrom {s : String} {af : List StrOrNum} :
    s ∈ normalizeAllowFrom af ↔ (∃ e ∈ af, normEntry e = s) ∧ s ≠ "" := by
  simp [normalizeAllowFrom, List.mem_filter]

theorem empty_not_mem_normalizeAllowFrom (af : List StrOrNum) :
    "" ∉ normalizeAllowFrom af := by
  intro h
  exact (mem_normalizeAllowFrom.mp h).2 rfl

theorem allowlistMatch_eq_spec (af : List StrOrNum) (sid : String)
    (sn : Option String) :
    resolveFeishuAllowlistMatch af sid sn = allowlistMatchSpec af sid sn := by
  unfold resolveFeishuAllowlistMatch allowlistMatchSpec
  by_cases h0 : normalizeAllowFrom af = []
  · cases sn <;> simp [h0]
  · have hlen : ¬ (normalizeAllowFrom af).length = 0 := by
      simpa [List.length_eq_zero] using h0
    by_cases hw : "*" ∈ normalizeAllowFrom af
    · simp [hlen, hw]
    · by_cases hid : lowerS sid ∈ normalizeAllowFrom af
      · simp [hlen, hw, hid]
      · cases sn with
        | none => simp [hlen, hw, hid]
        | some n =>
          by_cases hn : lowerS n ∈ normalizeAllowFrom af
          · have hne : ¬ lowerS n = "" := fun he =>
              empty_not_mem_normalizeAllowFrom af (he ▸ hn)
            simp [hlen, hw, hid, hn, hne]
          · simp [hlen, hw, hid, hn]

/-- C4: `resolveFeishuAllowlistMatch` applies the precedence
wildcard > id > name: a normalized wildcard entry wins with match source
`wildcard` regardless of other entries, else a case-insensitive id match is
reported as `id`, else a case-insensitive name match as `name`, else the
sender is not allowed. -/
theorem resolveFeishuAllowlistMatch_precedence (af : List StrOrNum) (sid : String)
    (sn : Option String) :
    resolveFeishuAllowlistMatch af sid sn = allowlistMatchSpec af sid sn :=
  allowlistMatch_eq_spec af sid sn

/-- C10: an allow-list whose entries all trim to the empty string (in
particular an empty list) rejects every sender, and matching depends only on
the trimmed, lowercased, string-coerced entries, so it is insensitive to
surrounding whitespace and case in configuration entries. -/
theorem resolveFeishuAllowlistMatch_empty_and_normalized :
    (∀ (af : List StrOrNum) (sid : String) (sn : Option String),
      (∀ e ∈ af, trimS e.toStr = "") →
        resolveFeishuAllowlistMatch af sid sn = { allowed := false })
    ∧ (∀ (af af' : List StrOrNum) (sid : String) (sn : Option String),
        af.map normEntry = af'.map normEntry →
          resolveFeishuAllowlistMatch af sid sn = resolveFeishuAllowlistMatch af' sid sn) := by
  constructor
  · intro af sid sn h
    have hnil : normalizeAllowFrom af = [] := by
      rw [List.eq_nil_iff_forall_not_mem]
      intro s hs
      obtain ⟨⟨e, he, hes⟩, hne⟩ := mem_normalizeAllowFrom.mp hs
      apply hne
      rw [← hes]
      unfold normEntry
      rw [h e he]
      rfl
    unfold resolveFeishuAllowlistMatch
    simp [hnil]
  · intro af af' sid sn h
    have hnorm : normalizeAllowFrom af = normalizeAllowFrom af' := by
      unfold normalizeAllowFrom
      rw [h]
    unfold resolveFeishuAllowlistMatch
    rw [hnorm]

/-- Witness for `resolveFeishuAllowlistMatch_empty_and_normalized`: a
blank-entry list rejects, and an entry with spaces and capitals matches like
its normalized form. -/
theorem resolveFeishuAllowlistMatch_empty_and_normalized_witness :
    resolveFeishuAllowlistMatch [.str " ", .str ""] "alice" none = { allowed := false }
    ∧ resolveFeishuAllowlistMatch [.str " ALICE "] "Alice" (some "x")
        = resolveFeishuAllowlistMatch [.str "alice"] "Alice" (some "x") :=
  ⟨resolveFeishuAllowlistMatch_empty_and_normalized.1 [.str " ", .str ""] "alice" none
      (by decide),
   resolveFeishuAllowlistMatch_empty_and_normalized.2 [.str " ALICE "] [.str "alice"]
      "Alice" (some "x") (by decide)⟩

/-- C3: for group messages, `disabled` drops the event, `open` accepts it
regardless of the allow-list, and `allowlist` accepts it exactly when the
wildcard, the sender id, or (case-insensitively) the sender name appears in
the effective allow-list (the group-specific `allowFrom` when configured,
else the global `groupAllowFrom`). -/
theorem isFeishuGroupAllowed_characterization (policy : GroupPolicy)
    (groupAllowFrom : List StrOrNum) (groupConfig : Option FeishuGroupConfig)
    (senderId : String) (senderName : Option String) :
    isFeishuGroupAllowed policy (effectiveGroupAllowFrom groupConfig groupAllowFrom)
        senderId senderName
      = groupAcceptSpec policy (effectiveGroupAllowFrom groupConfig groupAllowFrom)
        senderId senderName := by
  set L := effectiveGroupAllowFrom groupConfig groupAllowFrom with hL
  cases policy
  case disabled => rfl
  case allowlist =>
    show (resolveFeishuAllowlistMatch L senderId senderName).allowed = _
    rw [allowlistMatch_eq_spec]
    unfold allowlistMatchSpec groupAcceptSpec
    by_cases hw : "*" ∈ normalizeAllowFrom L
    · simp [hw]
    · by_cases hid : lowerS senderId ∈ normalizeAllowFrom L
      · simp [hw, hid]
      · cases senderName with
        | none => simp [hw, hid]
        | some n =>
          by_cases hn : lowerS n ∈ normalizeAllowFrom L
          · simp [hw, hid, hn]
          · simp [hw, hid, hn]
  all_goals rfl

/-! ### Helper lemmas: trimming and pattern removal -/

theorem dropTrailWs_eq_rdropWhile (l : List Char) :
    dropTrailWs l = List.rdropWhile wsChar l := rfl

theorem trimL_idem (l : List Char) : trimL (trimL l) = trimL l := by
  unfold trimL
  set A := l.dropWhile wsChar with hAdef
  have hA : A.dropWhile wsChar = A := List.dropWhile_idempotent wsChar l
  set B := dropTrailWs A with hBdef
  have hpre : B <+: A := by
    rw [hBdef, dropTrailWs_eq_rdropWhile]
    exact List.rdropWhile_prefix _ _
  have hdropB : B.dropWhile wsChar = B := by
    cases hB : B with
    | nil => rfl
    | cons c bs =>
      obtain ⟨t, ht⟩ := hpre
      have hart : A = c :: (bs ++ t) := by
        rw [← ht, hB]
        simp
      have hwsc : wsChar c = false := by
        by_contra hc
        have hc' : wsChar c = true := by simpa using hc
        have h2 := hA
        rw [hart] at h2
        rw [List.dropWhile_cons] at h2
        simp only [hc', if_true] at h2
        have hlen := congrArg List.length h2
        have hle : ((bs ++ t).dropWhile wsChar).length ≤ (bs ++ t).length :=
          (List.dropWhile_suffix wsChar).length_le
        simp at hlen
        simp at hle
        omega
      rw [List.dropWhile_cons]
      simp [hwsc]
  rw [hdropB, hBdef, dropTrailWs_eq_rdropWhile, dropTrailWs_eq_rdropWhile,
    List.rdropWhile_idempotent]

theorem leadsWith_iff (p s : List Char) :
    leadsWith p s = true ↔ ∃ t, s = p ++ t := by
  induction p generalizing s with
  | nil => simp [leadsWith]
  | cons a ps ih =>
    cases s with
    | nil => simp [leadsWith]
    | cons c cs =>
      simp only [leadsWith, Bool.and_eq_true, beq_iff_eq, ih, List.cons_append,
        List.cons.injEq]
      constructor
      · rintro ⟨rfl, t, rfl⟩
        exact ⟨t, rfl, rfl⟩
      · rintro ⟨t, rfl, rfl⟩
        exact ⟨rfl, t, rfl⟩

theorem containsSub_iff (pat s : List Char) :
    containsSub pat s = true ↔ ∃ x y, s = x ++ pat ++ y := by
  induction s with
  | nil =>
    simp only [containsSub, List.isEmpty_iff]
    constructor
    · intro h
      exact ⟨[], [], by simp [h]⟩
    · rintro ⟨x, y, hxy⟩
      rcases List.append_eq_nil.mp (List.append_eq_nil.mp hxy.symm).1 with ⟨-, h2⟩
      exact h2
  | cons c cs ih =>
    simp only [containsSub, Bool.or_eq_true, leadsWith_iff, ih]
    constructor
    · rintro (⟨t, ht⟩ | ⟨x, y, hxy⟩)
      · exact ⟨[], t, by simpa using ht⟩
      · exact ⟨c :: x, y, by simp [hxy]⟩
    · rintro ⟨x, y, hxy⟩
      cases x with
      | nil =>
        exact Or.inl ⟨y, by simpa using hxy⟩
      | cons a x' =>
        right
        have h2 : c = a ∧ cs = x' ++ (pat ++ y) := by simpa using hxy
        exact ⟨x', y, by simp [h2.2]⟩

theorem removeAllGo_of_not_contains (pat : List Char) :
    ∀ (fuel : Nat) (s : List Char), s.length ≤ fuel →
      containsSub pat s = false → removeAllGo pat fuel s = s := by
  intro fuel
  induction fuel with
  | zero =>
    intro s hlen _
    cases s with
    | nil => rfl
    | cons c cs => simp at hlen
  | succ n ih =>
    intro s hlen hocc
    cases s with
    | nil => rfl
    | cons c cs =>
      have hocc' := hocc
      simp only [containsSub, Bool.or_eq_false_iff] at hocc'
      rw [removeAllGo, if_neg]
      · have : removeAllGo pat n cs = cs := by
          apply ih
          · simpa using Nat.le_of_succ_le_succ hlen
          · exact hocc'.2
        rw [this]
      · rintro ⟨-, hlead⟩
        rw [hocc'.1] at hlead
        exact Bool.false_ne_true hlead

theorem removePatWsGo_of_not_contains (pat : List Char) :
    ∀ (fuel : Nat) (s : List Char), s.length ≤ fuel →
      containsSub pat s = false → removePatWsGo pat fuel s = s := by
  intro fuel
  induction fuel with
  | zero =>
    intro s hlen _
    cases s with
    | nil => rfl
    | cons c cs => simp at hlen
  | succ n ih =>
    intro s hlen hocc
    cases s with
    | nil => rfl
    | cons c cs =>
      have hocc' := hocc
      simp only [containsSub, Bool.or_eq_false_iff] at hocc'
      rw [removePatWsGo, if_neg]
      · have : removePatWsGo pat n cs = cs := by
          apply ih
          · simpa using Nat.le_of_succ_le_succ hlen
          · exact hocc'.2
        rw [this]
      · rintro ⟨-, hlead⟩
        rw [hocc'.1] at hlead
        exact Bool.false_ne_true hlead

theorem removeAll_of_not_contains {pat s : List Char}
    (h : containsSub pat s = false) : removeAll pat s = s :=
  removeAllGo_of_not_contains pat s.length s le_rfl h

theorem removePatWs_of_not_contains {pat s : List Char}
    (h : containsSub pat s = false) : removePatWs pat s = s :=
  removePatWsGo_of_not_contains pat s.length s le_rfl h

theorem stripStep_trimmed (x : List Char) (m : Mention) :
    trimL (stripStep x m) = stripStep x m := by
  unfold stripStep
  exact trimL_idem _

theorem foldl_stripStep_trimmed (ms : List Mention) (x : List Char) (h : ms ≠ []) :
    trimL (List.foldl stripStep x ms) = List.foldl stripStep x ms := by
  induction ms generalizing x with
  | nil => exact absurd rfl h
  | cons m ms' ih =>
    cases ms' with
    | nil =>
      simp only [List.foldl_cons, List.foldl_nil]
      exact stripStep_trimmed x m
    | cons m2 ms'' =>
      rw [List.foldl_cons]
      exact ih (stripStep x m) (List.cons_ne_nil m2 ms'')

theorem foldl_stripStep_fixed (ms : List Mention) (x : List Char)
    (hx : trimL x = x)
    (h : ∀ m ∈ ms, containsSub ('@' :: m.name.data) x = false
      ∧ containsSub m.key.data x = false) :
    List.foldl stripStep x ms = x := by
  induction ms with
  | nil => rfl
  | cons m ms' ih =>
    have hm := h m (by simp)
    have hstep : stripStep x m = x := by
      unfold stripStep
      rw [removePatWs_of_not_contains hm.1, hx, removeAll_of_not_contains hm.2, hx]
    simp only [List.foldl_cons, hstep]
    exact ih (fun m' hm' => h m' (by simp [hm']))

/-- C6 counterexample: stripping is not idempotent.  For the text `@@aa` and
a mention named `a` (key `zzz`), one strip yields `@a` (removal of the inner
`@a` joins the outer `@` with the trailing `a`), and a second strip removes
the newly formed `@a`, yielding the empty string. -/
theorem stripBotMention_not_idempotent :
    stripBotMention (stripBotMention "@@aa" (some mentionListA)) (some mentionListA)
      ≠ stripBotMention "@@aa" (some mentionListA) := by decide

/-- C6 (amended): mention-stripping is idempotent provided the once-stripped
text contains no residual occurrence of any mention display form (`@name`)
or raw key token; the original claim fails without this proviso because a
removal can join surrounding characters into a new occurrence. -/
theorem stripBotMention_idempotent_of_no_residual (text : String)
    (mentions : Option (List Mention))
    (h : ∀ m ∈ mentions.getD [],
      containsSub ('@' :: m.name.data) (stripBotMention text mentions).data = false
      ∧ containsSub m.key.data (stripBotMention text mentions).data = false) :
    stripBotMention (stripBotMention text mentions) mentions
      = stripBotMention text mentions := by
  cases mentions with
  | none => rfl
  | some ms =>
    by_cases hms : ms = []
    · subst hms
      simp [stripBotMention]
    · have hstrip : stripBotMention text (some ms) = ⟨List.foldl stripStep text.data ms⟩ := by
        simp [stripBotMention, hms]
      rw [hstrip] at h ⊢
      have htrim : trimL (List.foldl stripStep text.data ms)
          = List.foldl stripStep text.data ms :=
        foldl_stripStep_trimmed ms text.data hms
      simp only [stripBotMention, if_neg hms]
      congr 1
      exact foldl_stripStep_fixed ms _ htrim (fun m hm => by
        simpa using h m (by simpa using hm))

/-- Witness for `stripBotMention_idempotent_of_no_residual`: the stripped
form of `hello @Bot x` is `hello x`, which holds no residual mention, so a
second strip leaves it unchanged. -/
theorem stripBotMention_idempotent_of_no_residual_witness :
    stripBotMention (stripBotMention "hello @Bot x" (some mentionListBot))
        (some mentionListBot)
      = stripBotMention "hello @Bot x" (some mentionListBot) :=
  stripBotMention_idempotent_of_no_residual "hello @Bot x" (some mentionListBot)
    (by decide)

/-- C5 counterexample: the claim reads any defined bot id as known, but the
code treats an empty-string bot id as unknown (JS falsiness).  With
`botOpenId = some ""` and one mention of `u1`, the flag is `true` although no
mention entry has open id `""`. -/
theorem checkBotMentioned_empty_botid_counterexample :
    checkBotMentioned evMentionU1 (some "") = true
    ∧ ((evMentionU1.message.mentions.getD []).any
        (fun m => m.id.openId == some "")) = false := by
  decide

/-- C5 (amended): when the bot identifier is unknown, where unknown means
undefined or the empty string, the mentioned flag is `true` iff the mention
list is non-empty; when the bot identifier is a known non-empty string, the
flag is `true` iff some mention entry has that open id. -/
theorem checkBotMentioned_characterization (event : FeishuMessageEvent)
    (botOpenId : Option String) :
    (truthyOS botOpenId = false →
      (checkBotMentioned event botOpenId = true ↔ event.message.mentions.getD [] ≠ []))
    ∧ (∀ b, botOpenId = some b → b ≠ "" →
      (checkBotMentioned event botOpenId = true
        ↔ (event.message.mentions.getD []).any (fun m => m.id.openId == some b) = true)) := by
  constructor
  · intro ht
    unfold checkBotMentioned
    cases hm : event.message.mentions.getD [] with
    | nil => simp
    | cons a as => simp [ht]
  · intro b hb hbne
    subst hb
    unfold checkBotMentioned
    have ht : truthyOS (some b) = true := by simp [truthyOS, hbne]
    cases hm : event.message.mentions.getD [] with
    | nil => simp
    | cons a as => simp [ht]

/-- Witness for `checkBotMentioned_characterization`: with an unknown bot id
the single-mention event counts as mentioned, and with the known id `u1` the
mention of `u1` counts as mentioned. -/
theorem checkBotMentioned_characterization_witness :
    checkBotMentioned evMentionU1 none = true
    ∧ checkBotMentioned evMentionU1 (some "u1") = true :=
  ⟨((checkBotMentioned_characterization evMentionU1 none).1 (by decide)).mpr (by decide),
   ((checkBotMentioned_characterization evMentionU1 (some "u1")).2 "u1" rfl
      (by decide)).mpr (by decide)⟩

/-! ### Helper lemmas: media resolution -/

theorem foldl_postMediaStep (mid : String) (fetch : MediaFetchRequest → Option SavedMedia) :
    ∀ (keys : List String) (acc : List FeishuMediaInfo × List MediaFetchRequest),
      keys.foldl (postMediaStep mid fetch) acc
        = (acc.1 ++ keys.filterMap (fun k => (fetch ⟨mid, k, "image"⟩).map
              (fun s => ⟨s.path, s.contentType, "<media:image>"⟩)),
           acc.2 ++ keys.map (fun k => (⟨mid, k, "image"⟩ : MediaFetchRequest))) := by
  intro keys
  induction keys with
  | nil => intro acc; simp
  | cons k ks ih =>
    intro acc
    rw [List.foldl_cons, ih]
    cases hf : fetch ⟨mid, k, "image"⟩ with
    | none => simp [postMediaStep, hf]
    | some saved => simp [postMediaStep, hf]

/-- C8: for a richtext (`post`) message, the resolved media list is exactly
the per-key fetch results that succeeded, in key order — each embedded image
is resolved independently, one failure does not abort the rest (the request
trace covers every key), the list never exceeds the number of embedded image
keys, and the resolver is a total function (the per-item try/catch is the
`Option` result of the fetch oracle, so no failure escapes to the caller). -/
theorem resolveFeishuMediaList_post_characterization (mid : String)
    (contentJson : Option Json) (fetch : MediaFetchRequest → Option SavedMedia) :
    (resolveFeishuMediaList mid "post" contentJson fetch).1
      = (parsePostContent contentJson).imageKeys.filterMap
          (fun k => (fetch ⟨mid, k, "image"⟩).map
            (fun s => ⟨s.path, s.contentType, "<media:image>"⟩))
    ∧ (resolveFeishuMediaList mid "post" contentJson fetch).1.length
        ≤ (parsePostContent contentJson).imageKeys.length
    ∧ (resolveFeishuMediaList mid "post" contentJson fetch).2
        = (parsePostContent contentJson).imageKeys.map
            (fun k => (⟨mid, k, "image"⟩ : MediaFetchRequest)) := by
  have hmain : resolveFeishuMediaList mid "post" contentJson fetch
      = ((parsePostContent contentJson).imageKeys.filterMap
          (fun k => (fetch ⟨mid, k, "image"⟩).map
            (fun s => ⟨s.path, s.contentType, "<media:image>"⟩)),
         (parsePostContent contentJson).imageKeys.map
            (fun k => (⟨mid, k, "image"⟩ : MediaFetchRequest))) := by
    unfold resolveFeishuMediaList
    have hmem : mediaTypes.contains "post" = true := by decide
    simp only [hmem, not_true_eq_false, if_false, if_true]
    by_cases hk : (parsePostContent contentJson).imageKeys = []
    · simp [hk]
    · simp only [hk, if_false]
      rw [foldl_postMediaStep]
      simp
  refine ⟨?_, ?_, ?_⟩
  · rw [hmain]
  · rw [hmain]
    simpa using List.length_filterMap_le _ _
  · rw [hmain]

/-- C9 (code bug): for a video message whose content carries both the video
file key `vid1` and the thumbnail image key `thumb1`, the resolver issues a
message-resource request for the thumbnail `thumb1` (with resource type
`file`), never for the video key `vid1`, because the code picks
`mediaKeys.imageKey || mediaKeys.fileKey`. -/
theorem resolveFeishuMediaList_video_requests_thumbnail :
    (resolveFeishuMediaList "m1" "video" (some videoContentJson) (fun _ => none)).2
      = [⟨"m1", "thumb1", "file"⟩]
    ∧ ∀ r ∈ (resolveFeishuMediaList "m1" "video" (some videoContentJson)
        (fun _ => none)).2, r.fileKey ≠ "vid1" := by
  decide

/-! ### Helper lemmas: render-mode regex matchers -/

theorem existsSegRun_iff (p : Char → Bool) (k : List Char → Bool) :
    ∀ s, existsSegRun p k s = true
      ↔ ∃ b r, s = b ++ r ∧ b ≠ [] ∧ (∀ x ∈ b, p x = true) ∧ k r = true := by
  intro s
  induction s with
  | nil =>
    constructor
    · intro h
      exact absurd h (by simp [existsSegRun])
    · rintro ⟨b, r, hbr, hb, -, -⟩
      exact absurd (List.append_eq_nil.mp hbr.symm).1 hb
  | cons c cs ih =>
    simp only [existsSegRun, Bool.and_eq_true, Bool.or_eq_true, ih]
    constructor
    · rintro ⟨hc, hk | ⟨b, r, rfl, hb, hpb, hk⟩⟩
      · exact ⟨[c], cs, rfl, by simp, by simpa using hc, hk⟩
      · refine ⟨c :: b, r, rfl, by simp, ?_, hk⟩
        intro x hx
        rcases List.mem_cons.mp hx with rfl | hx
        · exact hc
        · exact hpb x hx
    · rintro ⟨b, r, hbr, hb, hpb, hk⟩
      cases b with
      | nil => exact absurd rfl hb
      | cons b0 bs =>
        have h2 : c = b0 ∧ cs = bs ++ r := by simpa using hbr
        obtain ⟨he, hcs⟩ := h2
        subst he
        subst hcs
        refine ⟨hpb c (by simp), ?_⟩
        cases bs with
        | nil => exact Or.inl (by simpa using hk)
        | cons b1 bs' =>
          refine Or.inr ⟨b1 :: bs', r, rfl, by simp, ?_, hk⟩
          intro x hx
          exact hpb x (by simp [List.mem_cons] at hx ⊢; tauto)

theorem pipeThen_iff (f : List Char → Bool) (r : List Char) :
    pipeThen f r = true ↔ ∃ rest, r = '|' :: rest ∧ f rest = true := by
  cases r with
  | nil => simp [pipeThen]
  | cons c rest =>
    simp only [pipeThen, Bool.and_eq_true, beq_iff_eq, List.cons.injEq]
    constructor
    · rintro ⟨rfl, hf⟩
      exact ⟨rest, ⟨rfl, rfl⟩, hf⟩
    · rintro ⟨rest', ⟨rfl, rfl⟩, hf⟩
      exact ⟨rfl, hf⟩

theorem tableAt_iff (s : List Char) : tableAt s = true ↔ TableAtProp s := by
  unfold tableAt TableAtProp
  rw [pipeThen_iff]
  constructor
  · rintro ⟨r1, rfl, h1⟩
    rw [existsSegRun_iff] at h1
    obtain ⟨b, r2, rfl, hb, hpb, h2⟩ := h1
    rw [pipeThen_iff] at h2
    obtain ⟨r3, rfl, h3⟩ := h2
    rw [existsSegRun_iff] at h3
    obtain ⟨c, r4, rfl, hc, hpc, h4⟩ := h3
    rw [pipeThen_iff] at h4
    obtain ⟨r5, rfl, h5⟩ := h4
    rw [existsSegRun_iff] at h5
    obtain ⟨d, r6, rfl, hd, hpd, h6⟩ := h5
    rw [pipeThen_iff] at h6
    obtain ⟨rest, rfl, -⟩ := h6
    refine ⟨b, c, d, rest, rfl, hb, ?_, hc, hpc, hd, hpd⟩
    intro x hx
    have := hpb x hx
    simpa [notLineTerm] using this
  · rintro ⟨b, c, d, rest, rfl, hb, hpb, hc, hpc, hd, hpd⟩
    refine ⟨_, rfl, ?_⟩
    rw [existsSegRun_iff]
    refine ⟨b, _, rfl, hb, ?_, ?_⟩
    · intro x hx
      simp [notLineTerm, hpb x hx]
    · rw [pipeThen_iff]
      refine ⟨_, rfl, ?_⟩
      rw [existsSegRun_iff]
      refine ⟨c, _, rfl, hc, hpc, ?_⟩
      rw [pipeThen_iff]
      refine ⟨_, rfl, ?_⟩
      rw [existsSegRun_iff]
      refine ⟨d, _, rfl, hd, hpd, ?_⟩
      rw [pipeThen_iff]
      exact ⟨rest, rfl, rfl⟩

theorem hasTable_iff (s : List Char) : hasTable s = true ↔ TableOccurs s := by
  induction s with
  | nil =>
    constructor
    · intro h
      exact absurd h (by simp [hasTable])
    · rintro ⟨pre, b, c, d, rest, habc, -⟩
      exact absurd (congrArg List.length habc) (by simp; omega)
  | cons x xs ih =>
    simp only [hasTable, Bool.or_eq_true, ih, tableAt_iff]
    constructor
    · rintro (⟨b, c, d, rest, heq, hps⟩ | ⟨pre, b, c, d, rest, heq, hps⟩)
      · exact ⟨[], b, c, d, rest, by simp [heq], hps⟩
      · exact ⟨x :: pre, b, c, d, rest, by simp [heq], hps⟩
    · rintro ⟨pre, b, c, d, rest, heq, hps⟩
      cases pre with
      | nil => exact Or.inl ⟨b, c, d, rest, by simpa using heq, hps⟩
      | cons p0 ps =>
        have h2 : x = p0 ∧ xs = ps ++ '|' :: (b ++ '|' :: (c ++ '|' :: (d ++ '|' :: rest))) := by
          simpa using heq
        exact Or.inr ⟨ps, b, c, d, rest, h2.2, hps⟩

theorem hasFence_iff (s : List Char) : hasFence s = true ↔ FenceOccurs s := by
  induction s with
  | nil =>
    constructor
    · intro h
      exact absurd h (by simp [hasFence])
    · rintro ⟨a, b, c, habc⟩
      exact absurd (congrArg List.length habc) (by simp [fenceTok]; omega)
  | cons x xs ih =>
    unfold FenceOccurs at ih ⊢
    simp only [hasFence, Bool.or_eq_true, Bool.and_eq_true, ih]
    constructor
    · rintro (⟨hlead, hsub⟩ | ⟨a, b, c, habc⟩)
      · obtain ⟨t, ht⟩ := (leadsWith_iff _ _).mp hlead
        rw [ht, List.drop_left] at hsub
        obtain ⟨b, y, hby⟩ := (containsSub_iff _ _).mp hsub
        exact ⟨[], b, y, by simp [ht, hby]⟩
      · exact ⟨x :: a, b, c, by simp [habc]⟩
    · rintro ⟨a, b, c, habc⟩
      cases a with
      | nil =>
        left
        have hx : x :: xs = fenceTok ++ (b ++ fenceTok ++ c) := by simpa using habc
        constructor
        · exact (leadsWith_iff _ _).mpr ⟨b ++ fenceTok ++ c, hx⟩
        · rw [hx, List.drop_left]
          exact (containsSub_iff _ _).mpr ⟨b, c, rfl⟩
      | cons a0 as =>
        right
        have h2 : x = a0 ∧ xs = as ++ fenceTok ++ b ++ fenceTok ++ c := by
          simpa using habc
        exact ⟨as, b, c, h2.2⟩

theorem shouldUseCard_iff (text : String) :
    shouldUseCard text = true ↔ FenceOccurs text.data ∨ TableOccurs text.data := by
  simp only [shouldUseCard, Bool.or_eq_true, hasFence_iff, hasTable_iff]

/-- C7: whitespace-only fragments cause no delivery; render mode `card`
forces rich-card delivery of the unconverted text; `raw` forces plain-text
delivery with markdown tables converted before chunking; `auto` (also the
default when unset) selects rich-card delivery exactly when the fragment
contains a fenced code block or the markdown table pattern (a header row and
a separator row both delimited by `|`), else converted plain text. -/
theorem deliverFeishuReply_render_selection (rm : Option RenderMode)
    (convertTables : String → String) (chunk : String → List String)
    (payloadText : Option String) :
    (trimS (payloadText.getD "") = "" →
      deliverFeishuReply rm convertTables chunk payloadText = .skipped)
    ∧ (trimS (payloadText.getD "") ≠ "" →
        deliverFeishuReply (some .card) convertTables chunk payloadText
          = .cards (chunk (payloadText.getD ""))
        ∧ deliverFeishuReply (some .raw) convertTables chunk payloadText
          = .texts (chunk (convertTables (payloadText.getD "")))
        ∧ ((rm = some .auto ∨ rm = none) →
            deliverFeishuReply rm convertTables chunk payloadText
              = if shouldUseCard (payloadText.getD "") then
                  .cards (chunk (payloadText.getD ""))
                else .texts (chunk (convertTables (payloadText.getD "")))))
    ∧ (shouldUseCard (payloadText.getD "") = true
        ↔ FenceOccurs (payloadText.getD "").data
          ∨ TableOccurs (payloadText.getD "").data) := by
  refine ⟨?_, ?_, shouldUseCard_iff _⟩
  · intro h
    unfold deliverFeishuReply
    simp [h]
  · intro h
    refine ⟨?_, ?_, ?_⟩
    · unfold deliverFeishuReply
      simp [h]
    · unfold deliverFeishuReply
      simp [h]
    · rintro (rfl | rfl) <;>
        unfold deliverFeishuReply <;>
        by_cases hc : shouldUseCard (payloadText.getD "") = true <;>
        simp [h, hc]

/-- Witness for `deliverFeishuReply_render_selection`: under `auto`, a
two-row pipe table goes out as a card of the raw text, plain prose goes out
as converted text, and a whitespace-only fragment is skipped. -/
theorem deliverFeishuReply_render_selection_witness :
    deliverFeishuReply (some .auto) (fun s => s ++ "T") (fun s => [s])
        (some "| a |\n|-|") = .cards ["| a |\n|-|"]
    ∧ deliverFeishuReply (some .auto) (fun s => s ++ "T") (fun s => [s])
        (some "hello") = .texts ["helloT"]
    ∧ deliverFeishuReply (some .raw) (fun s => s ++ "T") (fun s => [s])
        (some " ") = .skipped := by
  refine ⟨?_, ?_, ?_⟩
  · have h := ((deliverFeishuReply_render_selection (some .auto) (fun s => s ++ "T")
      (fun s => [s]) (some "| a |\n|-|")).2.1 (by decide)).2.2 (Or.inl rfl)
    rw [h]
    decide
  · have h := ((deliverFeishuReply_render_selection (some .auto) (fun s => s ++ "T")
      (fun s => [s]) (some "hello")).2.1 (by decide)).2.2 (Or.inl rfl)
    rw [h]
    decide
  · exact (deliverFeishuReply_render_selection (some .raw) (fun s => s ++ "T")
      (fun s => [s]) (some " ")).1 (by decide)

/-! ### Helper lemmas: history map -/

theorem histGet_cons (kv : String × List HistoryEntry) (rest : HistMap) (k : String) :
    histGet (kv :: rest) k = if kv.1 = k then kv.2 else histGet rest k := by
  by_cases h : kv.1 = k
  · simp [histGet, List.find?_cons, h]
  · simp [histGet, List.find?_cons, h]

theorem histGet_histSet_self (m : HistMap) (k : String) (v : List HistoryEntry) :
    histGet (histSet m k v) k = v := by
  induction m with
  | nil => simp [histGet, histSet]
  | cons kv rest ih =>
    by_cases h : kv.1 = k
    · simp [histSet, h, histGet_cons]
    · simp [histSet, h, histGet_cons, ih]

theorem histGet_histSet_ne (m : HistMap) (k : String) (v : List HistoryEntry)
    (k' : String) (h : k' ≠ k) : histGet (histSet m k v) k' = histGet m k' := by
  have h' : ¬ (k = k') := fun he => h he.symm
  induction m with
  | nil => simp [histGet, histSet, h']
  | cons kv rest ih =>
    by_cases hk : kv.1 = k
    · rw [histSet, if_pos hk, histGet_cons, histGet_cons, if_neg h', hk, if_neg h']
    · rw [histSet, if_neg hk, histGet_cons, histGet_cons, ih]

/-- C1: an accepted group message under a resolved mention requirement that
did not mention the bot is buffered, not dispatched: the handler appends
exactly one entry — sender open id, stripped body, message id, timestamp —
to the history buffer of that conversation (evicting oldest entries beyond
the limit), leaves every other conversation untouched, and returns without
resolving media, without dispatching to the agent, and without sending any
reply. -/
theorem handleFeishuMessage_buffers_unmentioned (p : HandleParams) (m : HistMap)
    (hGroup : (ctxOf p).chatType = ChatType.group)
    (hAllowed : groupAllowedOf p = true)
    (hReq : requireMentionOf p = true)
    (hNoMention : (ctxOf p).mentionedBot = false)
    (hHist : p.chatHistories = some m)
    (hLim : 0 < historyLimitOf p) :
    (handleFeishuMessage p).chatHistories
      = some (recordHist m (ctxOf p).chatId (historyLimitOf p)
          ⟨(ctxOf p).senderOpenId, (ctxOf p).content, p.now, (ctxOf p).messageId⟩)
    ∧ histGet (recordHist m (ctxOf p).chatId (historyLimitOf p)
          ⟨(ctxOf p).senderOpenId, (ctxOf p).content, p.now, (ctxOf p).messageId⟩)
        (ctxOf p).chatId
      = (histGet m (ctxOf p).chatId
          ++ [(⟨(ctxOf p).senderOpenId, (ctxOf p).content, p.now,
                (ctxOf p).messageId⟩ : HistoryEntry)]).drop
          ((histGet m (ctxOf p).chatId).length + 1 - historyLimitOf p)
    ∧ (∀ k, k ≠ (ctxOf p).chatId →
        histGet (recordHist m (ctxOf p).chatId (historyLimitOf p)
          ⟨(ctxOf p).senderOpenId, (ctxOf p).content, p.now, (ctxOf p).messageId⟩) k
          = histGet m k)
    ∧ (handleFeishuMessage p).mediaResolved = false
    ∧ (handleFeishuMessage p).dispatched = false
    ∧ (handleFeishuMessage p).repliesSent = 0 := by
  have hLim0 : historyLimitOf p ≠ 0 := Nat.pos_iff_ne_zero.mp hLim
  have hmain : handleFeishuMessage p =
      { chatHistories := some (recordHist m (ctxOf p).chatId (historyLimitOf p)
          ⟨(ctxOf p).senderOpenId, (ctxOf p).content, p.now, (ctxOf p).messageId⟩)
        mediaResolved := false, dispatched := false, repliesSent := 0 } := by
    unfold handleFeishuMessage
    simp only [hGroup]
    simp [hAllowed, hReq, hNoMention, hHist]
  refine ⟨by rw [hmain], ?_, ?_, by rw [hmain], by rw [hmain], by rw [hmain]⟩
  · unfold recordHist
    rw [if_neg hLim0, histGet_histSet_self]
    simp
  · intro k hk
    unfold recordHist
    rw [if_neg hLim0, histGet_histSet_ne _ _ _ _ hk]

/-- Witness for `handleFeishuMessage_buffers_unmentioned`: a group message
from `u_sender` in chat `c1` that mentions `u1` while the bot is `bot9` is
appended to the buffer of `c1` and nothing is dispatched. -/
theorem handleFeishuMessage_buffers_unmentioned_witness :
    (handleFeishuMessage pBuffer).chatHistories
      = some [("c1", [⟨"u_sender", "hi", 111, "m1"⟩])]
    ∧ (handleFeishuMessage pBuffer).mediaResolved = false
    ∧ (handleFeishuMessage pBuffer).dispatched = false
    ∧ (handleFeishuMessage pBuffer).repliesSent = 0 := by
  have h := handleFeishuMessage_buffers_unmentioned pBuffer [] (by decide) (by decide)
    (by decide) (by decide) rfl (by decide)
  refine ⟨?_, h.2.2.2.1, h.2.2.2.2.1, h.2.2.2.2.2⟩
  rw [h.1]
  decide

/-- C2: for a group message that reaches dispatch, the history buffer of the
conversation is cleared exactly when the agent dispatch completes
successfully (a successful dispatch always reaches the clear, since the
typing teardown in between catches its own failures and the clear itself
never throws), and is left completely unchanged when the dispatch itself or
any earlier step inside the `try` block throws — a throw during the
dispatch still counts as an attempted dispatch, yet the buffer keeps its
entries. -/
theorem handleFeishuMessage_clears_only_on_success (p : HandleParams) (m : HistMap)
    (hGroup : (ctxOf p).chatType = ChatType.group)
    (hAllowed : groupAllowedOf p = true)
    (hPath : requireMentionOf p = false ∨ (ctxOf p).mentionedBot = true)
    (hHist : p.chatHistories = some m)
    (hChat : (ctxOf p).chatId ≠ "") :
    (p.failure = none →
      (handleFeishuMessage p).chatHistories = some (clearHist m (ctxOf p).chatId)
      ∧ histGet (clearHist m (ctxOf p).chatId) (ctxOf p).chatId = []
      ∧ (handleFeishuMessage p).dispatched = true)
    ∧ (∀ st, p.failure = some st →
        (handleFeishuMessage p).chatHistories = some m)
    ∧ (p.failure = some TryStage.dispatchStep →
        (handleFeishuMessage p).dispatched = true) := by
  have hcond : ¬(requireMentionOf p = true ∧ (ctxOf p).mentionedBot = false) := by
    rcases hPath with h | h <;> simp [h]
  have hmain : handleFeishuMessage p = runTryBlock p (ctxOf p) true := by
    unfold handleFeishuMessage
    simp only [hGroup]
    simp [hAllowed, hcond]
  refine ⟨?_, ?_, ?_⟩
  · intro hf
    refine ⟨?_, ?_, ?_⟩
    · rw [hmain]
      unfold runTryBlock
      simp [hf, hChat, hHist]
    · unfold clearHist
      rw [histGet_histSet_self]
    · rw [hmain]
      unfold runTryBlock
      simp [hf]
  · intro st hf
    rw [hmain]
    unfold runTryBlock
    simp [hf, hHist]
  · intro hf
    rw [hmain]
    unfold runTryBlock
    simp [hf]

/-- Witness for `handleFeishuMessage_clears_only_on_success`: with the bot id
`u1` the event mentions the bot, so it reaches dispatch; on success the
previously buffered entry of `c1` is cleared, and with a throwing dispatch
the dispatch is still attempted but the buffer keeps its entry. -/
theorem handleFeishuMessage_clears_only_on_success_witness :
    (handleFeishuMessage pDispatch).chatHistories = some [("c1", [])]
    ∧ (handleFeishuMessage pDispatch).dispatched = true
    ∧ (handleFeishuMessage { pDispatch with failure := some .dispatchStep }).chatHistories
        = some [("c1", [⟨"u_old", "earlier", 100, "m0"⟩])]
    ∧ (handleFeishuMessage { pDispatch with failure := some .dispatchStep }).dispatched
        = true := by
  have h1 := handleFeishuMessage_clears_only_on_success pDispatch
    [("c1", [⟨"u_old", "earlier", 100, "m0"⟩])] (by decide) (by decide)
    (Or.inr (by decide)) rfl (by decide)
  have h2 := handleFeishuMessage_clears_only_on_success
    { pDispatch with failure := some .dispatchStep }
    [("c1", [⟨"u_old", "earlier", 100, "m0"⟩])] (by decide) (by decide)
    (Or.inr (by decide)) rfl (by decide)
  refine ⟨?_, (h1.1 rfl).2.2, h2.2.1 .dispatchStep rfl, h2.2.2 rfl⟩
  rw [(h1.1 rfl).1]
  decide
